import Mathlib

/-!
Verification development for the tiny shell `tsh.c`.

The C program is shallowly embedded: the job table (`struct job_t jobs[MAXJOBS]`
together with the `nextjid` counter) becomes an explicit state record, the
helper routines (`addjob`, `deletejob`, `fgpid`, `pid2jid`, `getjobpid`,
`getjobjid`, `are_open_jobs`, `do_bgfg`, `logout`, the signal handlers) become
pure functions over that state, the history ring and its on-disk file become
lists of characters, and the simulated `proc` mirror becomes a pair of
finite association structures (directories and status files).  Machine `int`
and `pid_t` values are modelled as `Int`.  C functions that print and fall
through are modelled as returning their observable effects (messages, signals
sent, proc-file edits) explicitly.
-/

namespace Tsh

/-- MAXJOBS from tsh.c: capacity of the job table. -/
def MAXJOBS : Nat := 16

/-- MAXHISTORY from tsh.c: capacity of the history ring. -/
def MAXHISTORY : Nat := 10

/-- Job states UNDEF/FG/BG/ST from tsh.c lines 32-35. -/
inductive JState
| UNDEF
| FG
| BG
| ST
deriving DecidableEq, Repr

/-- struct job_t (tsh.c lines 55-60): pid, jid, state, cmdline. -/
structure Job where
  pid : Int
  jid : Int
  state : JState
  cmdline : List Char
deriving DecidableEq, Repr

/-- The job table state: the 16 slots of `jobs[]` plus the global `nextjid`. -/
structure JTable where
  slots : List Job
  nextjid : Int
deriving DecidableEq, Repr

/-- clearjob (tsh.c 830-835): the empty slot value. -/
def clearjob : Job := ⟨0, 0, JState.UNDEF, []⟩

/-- initjobs (tsh.c 848-853) with `nextjid = 1` (tsh.c 51). -/
def initJobs : JTable := ⟨List.replicate MAXJOBS clearjob, 1⟩

/-- maxjid (tsh.c 856-863): largest jid over all slots, starting from 0. -/
def maxjid (slots : List Job) : Int :=
  slots.foldl (fun m j => if j.jid > m then j.jid else m) 0

/-- The slot-scan of addjob (tsh.c 873-887): place the new job in the first
slot whose pid is 0; `none` models the "Tried to create too many jobs" path. -/
def addLoop (nj : Job) : List Job → Option (List Job)
  | [] => none
  | j :: rest =>
      if j.pid = 0 then some (nj :: rest)
      else
        match addLoop nj rest with
        | none => none
        | some r => some (j :: r)

/-- addjob (tsh.c 866-891).  The inserted job receives `jid = nextjid`, and
`nextjid` is then incremented and wrapped to 1 when it exceeds MAXJOBS. -/
def addjob (t : JTable) (pid : Int) (state : JState) (cmdline : List Char) :
    Bool × JTable :=
  if pid < 1 then (false, t)
  else
    match addLoop ⟨pid, t.nextjid, state, cmdline⟩ t.slots with
    | none => (false, t)
    | some slots1 =>
        (true, ⟨slots1, if t.nextjid + 1 > 16 then 1 else t.nextjid + 1⟩)

/-- The slot-scan of deletejob (tsh.c 900-906): clear the first slot whose
pid matches; `none` when no slot matches. -/
def delLoop (pid : Int) : List Job → Option (List Job)
  | [] => none
  | j :: rest =>
      if j.pid = pid then some (clearjob :: rest)
      else
        match delLoop pid rest with
        | none => none
        | some r => some (j :: r)

/-- deletejob (tsh.c 894-908): on success the matching slot is cleared and
`nextjid` is reset to `maxjid(jobs) + 1` over the remaining slots. -/
def deletejob (t : JTable) (pid : Int) : Bool × JTable :=
  if pid < 1 then (false, t)
  else
    match delLoop pid t.slots with
    | none => (false, t)
    | some slots1 => (true, ⟨slots1, maxjid slots1 + 1⟩)

/-- fgpid (tsh.c 911-918): pid of the first slot in state FG, else 0. -/
def fgpid (t : JTable) : Int :=
  match t.slots.find? (fun j => decide (j.state = JState.FG)) with
  | some j => j.pid
  | none => 0

/-- getjobpid (tsh.c 921-935): first slot with the given pid; NULL when
`pid < 1` or no slot matches. -/
def getjobpid (t : JTable) (pid : Int) : Option Job :=
  if pid < 1 then none else t.slots.find? (fun j => decide (j.pid = pid))

/-- getjobjid (tsh.c 938-952): first slot with the given jid; NULL when
`jid < 1` or no slot matches. -/
def getjobjid (t : JTable) (jid : Int) : Option Job :=
  if jid < 1 then none else t.slots.find? (fun j => decide (j.jid = jid))

/-- pid2jid (tsh.c 955-969): jid of the first slot with the given pid, else 0. -/
def pid2jid (t : JTable) (pid : Int) : Int :=
  if pid < 1 then 0
  else
    match t.slots.find? (fun j => decide (j.pid = pid)) with
    | some j => j.jid
    | none => 0

/-- are_open_jobs (tsh.c 838-845): some slot has a state other than UNDEF. -/
def are_open_jobs (t : JTable) : Bool :=
  t.slots.any (fun j => decide (j.state ≠ JState.UNDEF))

/-- bg_to_state (tsh.c 811-819). -/
def bg_to_state (bg : Bool) : JState := if bg then JState.BG else JState.FG

/-- In-place state update through the pointer returned by getjobpid /
getjobjid: rewrite the state of the first slot satisfying `p`. -/
def setStateFirst (p : Job → Bool) (s : JState) : List Job → List Job
  | [] => []
  | j :: rest =>
      if p j then ⟨j.pid, j.jid, s, j.cmdline⟩ :: rest
      else j :: setStateFirst p s rest

/-- Signals the shell sends to process groups. -/
inductive Sig
| SIGCONT
| SIGINT
| SIGTSTP
deriving DecidableEq, Repr

/-- The four user-error messages printed by do_bgfg (tsh.c 702, 721, 726, 737). -/
inductive BgfgErr
| notExist
| mustBeStopped
| alreadyFg
| alreadyBg
deriving DecidableEq, Repr

/-- Observable outcome of one do_bgfg call: the job table afterwards, the
`fg_pid` scalar afterwards, the `edit_proc_entry` calls made (pid, new stat),
the `kill` calls made (target, signal; a negative target is a process group),
whether `waitfg` was entered, and the error message if any. -/
structure BgfgRes where
  table : JTable
  fgPid : Int
  procEdits : List (Int × List Char)
  signals : List (Int × Sig)
  waitfgCalled : Bool
  err : Option BgfgErr
deriving DecidableEq, Repr

/-- do_bgfg (tsh.c 684-798).  `isBg` is true for the `bg` builtin and false
for `fg`.  `arg` is `atoi(argv[1])`.  The argument is first interpreted as a
pid via pid2jid; when that yields 0 it is looked up as a pid, otherwise as a
jid.  In both resume branches the `waitfg` call in the source is commented
out (tsh.c 756 and 794), so `waitfgCalled` is `false` in every branch. -/
def do_bgfg (isBg : Bool) (arg : Int) (t : JTable) (fgp : Int) : BgfgRes :=
  let jid := pid2jid t arg
  let job? := if jid = 0 then getjobpid t arg else getjobjid t jid
  match job? with
  | none => ⟨t, fgp, [], [], false, some BgfgErr.notExist⟩
  | some j =>
      if j.state = JState.FG then
        if isBg then ⟨t, fgp, [], [], false, some BgfgErr.mustBeStopped⟩
        else ⟨t, fgp, [], [], false, some BgfgErr.alreadyFg⟩
      else if j.state = JState.BG then
        if isBg then ⟨t, fgp, [], [], false, some BgfgErr.alreadyBg⟩
        else
          ⟨⟨setStateFirst
              (fun k => if jid = 0 then decide (k.pid = arg) else decide (k.jid = jid))
              JState.FG t.slots, t.nextjid⟩,
            0, [(j.pid, ['R', '+'])], [], false, none⟩
      else if j.state = JState.ST then
        if isBg then
          ⟨⟨setStateFirst
              (fun k => if jid = 0 then decide (k.pid = arg) else decide (k.jid = jid))
              JState.BG t.slots, t.nextjid⟩,
            fgp, [(j.pid, ['R'])], [(-j.pid, Sig.SIGCONT)], false, none⟩
        else
          ⟨⟨setStateFirst
              (fun k => if jid = 0 then decide (k.pid = arg) else decide (k.jid = jid))
              JState.FG t.slots, t.nextjid⟩,
            0, [(j.pid, ['R', '+'])], [(-j.pid, Sig.SIGCONT)], false, none⟩
      else ⟨t, fgp, [], [], false, none⟩

/-- Observable outcome of a completed sigtstp_handler run: the job table
afterwards, the `edit_proc_entry` calls made, and the `kill` calls made. -/
structure TstpRes where
  table : JTable
  procEdits : List (Int × List Char)
  signals : List (Int × Sig)
deriving DecidableEq, Repr

/-- sigtstp_handler (tsh.c 1559-1592).  It reads `pid_buf = fgpid(jobs)` and
then immediately executes `getjobpid(jobs, pid_buf)->state = ST` without a
NULL check, so when no job is in state FG (fgpid returns 0 and getjobpid
returns NULL) the handler dereferences NULL: modelled as `none`.  Otherwise
it sets the job state to ST, edits the proc stat to "T", and, since the pid
is non-zero, sends SIGTSTP to the job's whole process group. -/
def sigtstp_handler (t : JTable) : Option TstpRes :=
  let p := fgpid t
  match getjobpid t p with
  | none => none
  | some _ =>
      let t1 : JTable := ⟨setStateFirst (fun k => decide (k.pid = p)) JState.ST t.slots, t.nextjid⟩
      some ⟨t1, [(p, ['T'])], if p ≠ 0 then [(-p, Sig.SIGTSTP)] else []⟩

/-- Job-table transitions the shell can perform: `add` is the evaluator fork
path (tsh.c 547, state from bg_to_state), `del` a reap by sigchld_handler
(tsh.c 1481), `bgfg` a bg/fg builtin, `chldStop` the WIFSTOPPED branch of
sigchld_handler (tsh.c 1482-1496), and `intr` sigint_handler deleting the
foreground job (tsh.c 1527-1531). -/
inductive Act
| add (pid : Int) (bg : Bool) (cmd : List Char)
| del (pid : Int)
| bgfg (isBg : Bool) (arg : Int)
| chldStop (pid : Int)
| intr

/-- Effect of one action on the job table. -/
def applyAct (t : JTable) : Act → JTable
  | Act.add pid bg cmd => (addjob t pid (bg_to_state bg) cmd).2
  | Act.del pid => (deletejob t pid).2
  | Act.bgfg isBg arg => (do_bgfg isBg arg t 0).table
  | Act.chldStop pid =>
      match getjobpid t pid with
      | none => t
      | some _ => ⟨setStateFirst (fun k => decide (k.pid = pid)) JState.ST t.slots, t.nextjid⟩
  | Act.intr => (deletejob t (fgpid t)).2

/-- Run a sequence of actions from the freshly initialized table. -/
def runActs (acts : List Act) : JTable := acts.foldl applyAct initJobs

/-- Number of slots in state FG. -/
def countFG (t : JTable) : Nat :=
  (t.slots.filter (fun j => decide (j.state = JState.FG))).length

/-- Claim C1 (evaluation at the failing input): the trace `p &` (pid 101),
`q &` (pid 102), `fg 101`, `fg 102` is executable in the shell — because the
`waitfg` calls in do_bgfg are commented out, each `fg` returns to the prompt
at once — and it leaves TWO slots in state FG, although tsh.c's own comments
(lines 44 and 714) state that at most one job can be in the FG state. -/
theorem c1_two_foreground_jobs_reachable :
    countFG (runActs
      [Act.add 101 true [], Act.add 102 true [],
       Act.bgfg false 101, Act.bgfg false 102]) = 2 := by decide

/-- Claim C2 (evaluation at the failing input): on the reachable table holding
one stopped job (pid 5), `fg 5` sets the job's state to FG and sends SIGCONT
to its process group, but does not enter waitfg (the call at tsh.c 794 is
commented out), so the shell returns to the prompt immediately instead of
waiting out the job's foreground tenure. -/
theorem c2_fg_resumes_but_never_waits :
    ((do_bgfg false 5 (runActs [Act.add 5 true [], Act.chldStop 5]) 0).table.slots.getD 0 clearjob).state = JState.FG
    ∧ (do_bgfg false 5 (runActs [Act.add 5 true [], Act.chldStop 5]) 0).signals = [(-5, Sig.SIGCONT)]
    ∧ (do_bgfg false 5 (runActs [Act.add 5 true [], Act.chldStop 5]) 0).waitfgCalled = false := by
  decide

/-- Claim C4 (evaluation at the failing input): on the empty job table (no FG
job) sigtstp_handler dereferences the NULL returned by getjobpid — it does
not terminate cleanly (`none`); on a table with an FG job (pid 7) it sets the
job to ST, edits the proc stat to "T" and sends SIGTSTP to the group. -/
theorem c4_sigtstp_null_deref_when_no_fg :
    sigtstp_handler initJobs = none
    ∧ sigtstp_handler (runActs [Act.add 7 false []])
      = some ⟨⟨⟨7, 1, JState.ST, []⟩ :: List.replicate 15 clearjob, 2⟩,
              [(7, ['T'])], [(-7, Sig.SIGTSTP)]⟩ := by
  decide

/-- Helper for claim C10: when no slot carries the pid the deletejob scan
fails. -/
theorem delLoop_eq_none (pid : Int) :
    ∀ l : List Job, (∀ j ∈ l, j.pid ≠ pid) → delLoop pid l = none := by
  intro l
  induction l with
  | nil => intro _; rfl
  | cons j rest ih =>
      intro h
      have hj : j.pid ≠ pid := h j (List.mem_cons_self j rest)
      have hrest : delLoop pid rest = none := ih (fun k hk => h k (List.mem_cons_of_mem j hk))
      simp [delLoop, hj, hrest]

/-- Claim C10: for every pid not present in the job table (in particular every
pid < 1), deletejob returns the failure result and changes nothing: every
slot and the nextjid counter are exactly as before. -/
theorem c10_deletejob_missing_pid_noop :
    ∀ (t : JTable) (pid : Int),
      (pid < 1 ∨ ∀ j ∈ t.slots, j.pid ≠ pid) →
      deletejob t pid = (false, t) := by
  intro t pid h
  by_cases hp : pid < 1
  · simp [deletejob, hp]
  · rcases h with h | h
    · exact absurd h hp
    · simp [deletejob, hp, delLoop_eq_none pid t.slots h]

/-- Witness for claim C10 at a concrete input: pid 42 is absent from the
fresh table, and deletejob leaves the table untouched. -/
theorem c10_deletejob_missing_pid_noop_witness :
    deletejob initJobs 42 = (false, initJobs) :=
  c10_deletejob_missing_pid_noop initJobs 42 (Or.inr (by decide))

/-- The events of the evaluator's non-builtin parent path, in source order
(tsh.c 514-549): `sigprocmask(SIG_BLOCK, mask_one={SIGCHLD}, &prev_one)`,
`fork`, `sigprocmask(SIG_BLOCK, mask_all)`, `addjob(...)`,
`sigprocmask(SIG_SETMASK, &prev_one)`. -/
inductive EvalEv
| blockOne
| forkEv
| blockAll
| addJobEv
| restoreMask
deriving DecidableEq, Repr

/-- The parent-side event sequence of eval's fork path. -/
def evalSeq : List EvalEv := [EvalEv.blockOne, EvalEv.forkEv, EvalEv.blockAll, EvalEv.addJobEv, EvalEv.restoreMask]

/-- Whether SIGCHLD is blocked in the parent after one event, given the value
before it; `init` is its membership in the pre-eval mask `prev_one`. -/
def stepMask (init : Bool) (b : Bool) : EvalEv → Bool
  | EvalEv.blockOne => true
  | EvalEv.blockAll => true
  | EvalEv.restoreMask => init
  | _ => b

/-- Whether SIGCHLD is blocked in the parent after the first `i` events. -/
def sigchldBlockedAfter (init : Bool) (i : Nat) : Bool :=
  (evalSeq.take i).foldl (stepMask init) init

/-- A child process exists once the fork event (index 1) has completed. -/
abbrev childExistsAfter (i : Nat) : Prop := 2 ≤ i

/-- The child's job is in the table once the addjob event (index 3) has
completed. -/
abbrev jobInstalledAfter (i : Nat) : Prop := 4 ≤ i

/-- Claim C3: in the evaluator's non-builtin path the parent keeps SIGCHLD
blocked at every point from the fork up to and including the addjob call
(first conjunct), so at every point of the parent sequence where a child
exists and SIGCHLD is deliverable, the child's job is already installed in
the job table — the SIGCHLD handler can never observe a reaped child whose
job is missing (second conjunct). -/
theorem c3_fork_addjob_serialized_with_sigchld :
    (∀ (init : Bool) (i : Nat), 1 ≤ i → i ≤ 3 → sigchldBlockedAfter init i = true)
    ∧ (∀ (init : Bool) (i : Nat), i ≤ 5 → childExistsAfter i →
        sigchldBlockedAfter init i = false → jobInstalledAfter i) := by
  constructor
  · intro init i h1 h3
    interval_cases i <;> cases init <;> rfl
  · intro init i h5 h2 hb
    have h2' : 2 ≤ i := h2
    show 4 ≤ i
    interval_cases i
    · cases init <;> simp [sigchldBlockedAfter, evalSeq, stepMask] at hb
    · cases init <;> simp [sigchldBlockedAfter, evalSeq, stepMask] at hb
    · omega
    · omega

/-- Witness for claim C3 at concrete inputs: with SIGCHLD initially unblocked,
it is blocked right after the fork (i = 2), and at the first point where it is
deliverable again (i = 5, after the mask is restored) the job is installed. -/
theorem c3_fork_addjob_serialized_with_sigchld_witness :
    sigchldBlockedAfter false 2 = true ∧ jobInstalledAfter 5 :=
  ⟨c3_fork_addjob_serialized_with_sigchld.1 false 2 (by decide) (by decide),
   c3_fork_addjob_serialized_with_sigchld.2 false 5 (by decide) (by decide) (by decide)⟩

/-- The single-line message printed by logout when jobs remain (tsh.c 462). -/
inductive UserMsg
| suspendedJobs
deriving DecidableEq, Repr

/-- Observable outcome of the logout builtin: whether the shell exits (the
quit path: remove the session proc entry, reset the history file, remove all
proc entries, exit success), the message printed if any, and the job table
afterwards. -/
structure LogoutRes where
  exits : Bool
  msg : Option UserMsg
  table : JTable
deriving DecidableEq, Repr

/-- logout (tsh.c 459-469): if any job slot has a non-UNDEF state, print
"There are suspended jobs." and do nothing else; otherwise remove the session
proc entry and behave as quit (which exits the shell). -/
def logout (t : JTable) : LogoutRes :=
  if are_open_jobs t then ⟨false, some UserMsg.suspendedJobs, t⟩
  else ⟨true, none, t⟩

/-- Claim C9: logout exits the shell (behaving as quit) exactly when no job
slot is in a non-UNDEF state; when some non-UNDEF job remains it prints
"There are suspended jobs." and performs no other action — the job table is
untouched and the shell keeps running. -/
theorem c9_logout_exits_iff_no_open_jobs :
    ∀ t : JTable,
      ((logout t).exits = true ↔ ∀ j ∈ t.slots, j.state = JState.UNDEF)
      ∧ ((logout t).exits = false →
          (logout t).msg = some UserMsg.suspendedJobs ∧ (logout t).table = t) := by
  intro t
  by_cases h : are_open_jobs t = true
  · rcases List.any_eq_true.mp h with ⟨j, hj, hne⟩
    constructor
    · constructor
      · intro he
        simp [logout, h] at he
      · intro hall
        exact absurd (hall j hj) (by simpa using hne)
    · intro _
      simp [logout, h]
  · have h' : are_open_jobs t = false := by
      cases hb : are_open_jobs t
      · rfl
      · exact absurd hb h
    constructor
    · constructor
      · intro _ j hj
        by_contra hne
        have : are_open_jobs t = true :=
          List.any_eq_true.mpr ⟨j, hj, by simpa using hne⟩
        rw [this] at h'
        cases h'
      · intro _
        simp [logout, h']
    · intro hf
      simp [logout, h'] at hf

/-- Witness for claim C9 at a concrete table: with one stopped job, logout
does not exit, prints the suspended-jobs message, and leaves the table as it
was. -/
theorem c9_logout_exits_iff_no_open_jobs_witness :
    (logout (runActs [Act.add 5 true [], Act.chldStop 5])).msg = some UserMsg.suspendedJobs
    ∧ (logout (runActs [Act.add 5 true [], Act.chldStop 5])).table
        = runActs [Act.add 5 true [], Act.chldStop 5] :=
  (c9_logout_exits_iff_no_open_jobs (runActs [Act.add 5 true [], Act.chldStop 5])).2 (by decide)

/-- Fold a list of add operations (pid, state, cmdline) over the fresh table. -/
def runAdds (ops : List (Int × JState × List Char)) : JTable :=
  ops.foldl (fun t op => (addjob t op.1 op.2.1 op.2.2).2) initJobs

/-- Helper for claim C7: a job in the list produced by the addjob slot-scan is
either the newly inserted job or one of the old slots. -/
theorem mem_addLoop (nj : Job) :
    ∀ (l l1 : List Job), addLoop nj l = some l1 → ∀ j ∈ l1, j = nj ∨ j ∈ l := by
  intro l
  induction l with
  | nil => intro l1 h; cases h
  | cons a rest ih =>
      intro l1 h j hj
      by_cases ha : a.pid = 0
      · rw [addLoop, if_pos ha] at h
        cases h
        rcases List.mem_cons.mp hj with h1 | h1
        · exact Or.inl h1
        · exact Or.inr (List.mem_cons_of_mem a h1)
      · rw [addLoop, if_neg ha] at h
        cases hr : addLoop nj rest with
        | none => rw [hr] at h; cases h
        | some r =>
            rw [hr] at h
            cases h
            rcases List.mem_cons.mp hj with h1 | h1
            · exact Or.inr (by simp [h1])
            · rcases ih r hr j h1 with h2 | h2
              · exact Or.inl h2
              · exact Or.inr (List.mem_cons_of_mem a h2)

/-- Invariant used for claim C7: along add-only runs `nextjid` stays in
[1, 16] and every occupied slot has a jid in [1, 16]. -/
def AddInv (t : JTable) : Prop :=
  1 ≤ t.nextjid ∧ t.nextjid ≤ 16
  ∧ ∀ j ∈ t.slots, j.pid ≠ 0 → 1 ≤ j.jid ∧ j.jid ≤ 16

/-- Helper for claim C7: addjob preserves the invariant. -/
theorem addjob_preserves_AddInv (t : JTable) (pid : Int) (st : JState)
    (cmd : List Char) (h : AddInv t) : AddInv (addjob t pid st cmd).2 := by
  rcases h with ⟨h1, h16, hslots⟩
  by_cases hp : pid < 1
  · simpa [addjob, hp] using ⟨h1, h16, hslots⟩
  · cases hadd : addLoop ⟨pid, t.nextjid, st, cmd⟩ t.slots with
    | none => simpa [addjob, hp, hadd] using ⟨h1, h16, hslots⟩
    | some slots1 =>
        refine ⟨?_, ?_, ?_⟩
        · simp only [addjob, hp, if_false, hadd]
          by_cases hw : t.nextjid + 1 > 16 <;> simp [hw] <;> omega
        · simp only [addjob, hp, if_false, hadd]
          by_cases hw : t.nextjid + 1 > 16 <;> simp [hw] <;> omega
        · simp only [addjob, hp, if_false, hadd]
          intro j hj hjp
          rcases mem_addLoop _ t.slots slots1 hadd j hj with h2 | h2
          · subst h2; exact ⟨h1, h16⟩
          · exact hslots j h2 hjp

/-- Claim C7 (amended part): along any sequence consisting only of add
operations, every occupied slot's jid lies in [1, 16] — add assigns
`jid = nextjid`, increments it and wraps it to 1 when it would exceed the
capacity 16, so without removes the counter never leaves [1, 16]. -/
theorem c7_addonly_jids_in_range :
    ∀ (ops : List (Int × JState × List Char)),
      ∀ j ∈ (runAdds ops).slots, j.pid ≠ 0 → 1 ≤ j.jid ∧ j.jid ≤ 16 := by
  have hinit : AddInv initJobs := by
    refine ⟨by norm_num [initJobs], by norm_num [initJobs], ?_⟩
    intro j hj
    have := List.eq_of_mem_replicate hj
    subst this
    intro hp
    exact absurd rfl hp
  have hrun : ∀ (ops : List (Int × JState × List Char)) (t : JTable), AddInv t →
      AddInv (ops.foldl (fun t op => (addjob t op.1 op.2.1 op.2.2).2) t) := by
    intro ops
    induction ops with
    | nil => intro t h; exact h
    | cons op rest ih =>
        intro t h
        exact ih _ (addjob_preserves_AddInv t op.1 op.2.1 op.2.2 h)
  intro ops
  exact (hrun ops initJobs hinit).2.2

/-- Witness for claim C7 at a concrete input: a single add of pid 5 occupies
slot 0 with jid 1, which lies in [1, 16]. -/
theorem c7_addonly_jids_in_range_witness :
    1 ≤ ((runAdds [(5, JState.BG, [])]).slots.getD 0 clearjob).jid
    ∧ ((runAdds [(5, JState.BG, [])]).slots.getD 0 clearjob).jid ≤ 16 :=
  c7_addonly_jids_in_range [(5, JState.BG, [])]
    ((runAdds [(5, JState.BG, [])]).slots.getD 0 clearjob) (by decide) (by decide)

/-- The table reached by filling all 16 slots (pids 1..16, jids 1..16),
deleting pid 1 (which resets nextjid to maxjid + 1 = 17), and adding pid 17. -/
def c7_trace : JTable :=
  (addjob ((deletejob (runAdds ((List.range 16).map
      (fun k => ((k : Int) + 1, JState.BG, [])))) 1).2) 17 JState.BG []).2

/-- Claim C7 (counterexample): after 16 adds, one remove, and one more add,
the slot freed by the remove holds a job whose jid is 17 — outside [1, 16].
The remove reset `nextjid` to `maxjid + 1 = 17`, and the following add
assigned that value. -/
theorem c7_counterexample :
    ((c7_trace.slots.getD 0 clearjob).pid = 17
      ∧ (c7_trace.slots.getD 0 clearjob).jid = 17)
    ∧ ¬((c7_trace.slots.getD 0 clearjob).jid ≤ 16) := by
  decide

/-- struct stat_t (tsh.c 63-71): the record mirrored to proc/PID/status. -/
structure PStat where
  name : List Char
  pid : Int
  ppid : Int
  pgid : Int
  sid : Int
  state : List Char
  uname : List Char
deriving DecidableEq, Repr

/-- The simulated proc tree: the set of `proc/<pid>` directories and the
contents of the `proc/<pid>/status` files, keyed by pid. -/
structure ProcFS where
  dirs : List Int
  files : List (Int × PStat)
deriving DecidableEq, Repr

/-- Contents of proc/<pid>/status, if that file exists. -/
def lookupProcFile (fs : ProcFS) (pid : Int) : Option PStat :=
  (fs.files.find? (fun e => decide (e.1 = pid))).map (fun e => e.2)

/-- read_proc_entry (tsh.c 1343-1363).  `stat0` models the caller's
stack-allocated `struct stat_t` (uninitialized in edit_proc_entry).  When
`proc/<pid>/status` is missing, fopen returns NULL, an error is printed, and
the function then executes `fclose(NULL)` — undefined behavior that crashes
on common libc implementations — and returns with `stat0` unwritten; the
Bool is true when that undefined-behavior point was reached. -/
def read_proc_entry (stat0 : PStat) (pid : Int) (fs : ProcFS) : PStat × Bool :=
  match lookupProcFile fs pid with
  | none => (stat0, true)
  | some r => (r, false)

/-- write_proc_entry (tsh.c 1317-1340): rewrite proc/<stat.pid>/status.
`fopen(..., "w")` succeeds exactly when the directory `proc/<stat.pid>`
exists; on failure an error is printed and `fclose(NULL)` is reached — the
Bool is true when that undefined-behavior point was reached. -/
def write_proc_entry (st : PStat) (fs : ProcFS) : ProcFS × Bool :=
  if fs.dirs.contains st.pid then
    (⟨fs.dirs, (st.pid, st) :: fs.files.filter (fun e => !decide (e.1 = st.pid))⟩, false)
  else (fs, true)

/-- edit_proc_entry (tsh.c 1366-1380): read the record for `pid` into a local
uninitialized stat (`junk` models the stack garbage), overwrite its state
field, and write it back.  There is no early return when the read fails: the
write then runs on the uninitialized record.  The Bool reports whether any
undefined-behavior point (fclose(NULL)) was reached on the way. -/
def edit_proc_entry (junk : PStat) (pid : Int) (new_state : List Char)
    (fs : ProcFS) : ProcFS × Bool :=
  let r := read_proc_entry junk pid fs
  let st1 : PStat := { r.1 with state := new_state }
  let w := write_proc_entry st1 fs
  (w.1, r.2 || w.2)

/-- An arbitrary concrete value standing for the uninitialized stack contents
of `struct stat_t stat` in edit_proc_entry. -/
def junkStat : PStat := ⟨['j'], 999, 0, 0, 0, ['?'], []⟩

/-- The empty proc tree: no directories, no status files. -/
def emptyProcFS : ProcFS := ⟨[], []⟩

/-- Claim C8 (evaluation at the failing input): editing the state of pid 42,
whose proc record is absent, does not report missing and return cleanly — the
run reaches fclose(NULL) (undefined behavior, a crash on common libc
implementations) and then continues into write_proc_entry with the
uninitialized record instead of returning after the failed read.  (In this
run the junk-directed write also fails, so the mirror happens to be left
unchanged.) -/
theorem c8_edit_missing_record_faults :
    (edit_proc_entry junkStat 42 ['R'] emptyProcFS).2 = true
    ∧ (edit_proc_entry junkStat 42 ['R'] emptyProcFS).1 = emptyProcFS := by
  decide

/-- The slot-scan of add_to_history (tsh.c 1164-1171): copy the command into
the first empty slot of the 10-slot `history` array; `none` when no slot is
empty.  The ring is modelled compactly as the list of slots up to the last
occupied one (slots beyond it hold the empty string). -/
def addHistLoop (cmd : List Char) : List (List Char) → Option (List (List Char))
  | [] => none
  | e :: rest =>
      if e.length = 0 then some (cmd :: rest)
      else
        match addHistLoop cmd rest with
        | none => none
        | some r => some (e :: r)

/-- add_to_history (tsh.c 1162-1180): write into the first empty slot; when
all 10 slots are full, shift every entry down and place the command last.  In
the compact model a list shorter than MAXHISTORY has empty slots at its end,
so the command is appended. -/
def add_to_history (cmd : List Char) (h : List (List Char)) : List (List Char) :=
  match addHistLoop cmd h with
  | some h1 => h1
  | none => if h.length < MAXHISTORY then h ++ [cmd] else h.drop 1 ++ [cmd]

/-- history_length (tsh.c 1083-1092): count entries up to the first empty
slot. -/
def history_length : List (List Char) → Nat
  | [] => 0
  | e :: rest => if e.length = 0 then 0 else 1 + history_length rest

/-- The user-visible history state: the in-memory ring and the bytes of the
per-user .tsh_history file. -/
structure HistSt where
  ring : List (List Char)
  file : List Char
deriving DecidableEq, Repr

/-- write_to_history (tsh.c 1095-1134): strip one trailing newline; if the
command starts with '!', return without touching the ring or the file;
otherwise append the command plus a newline to the history file and add it to
the ring. -/
def write_to_history (cmd0 : List Char) (st : HistSt) : HistSt :=
  let cmd := if cmd0.getLast? = some '\n' then cmd0.dropLast else cmd0
  if cmd.head? = some '!' then st
  else ⟨add_to_history cmd st.ring, st.file ++ cmd ++ ['\n']⟩

/-- Effect of eval (tsh.c 490-562) on the history state: eval calls
write_to_history on the raw command line (tsh.c 511) before dispatching; no
later step of eval touches the ring or the history file for command lines
that do not terminate the shell (`quit`, and `logout` with no open jobs,
exit the session and rewrite the file). -/
def eval_hist (cmdline : List Char) (st : HistSt) : HistSt :=
  write_to_history cmdline st

/-- run_nth_history (tsh.c 1137-1159): parse N from `!N`; report an error and
return when N exceeds the ring length or is below 1; otherwise copy ring
entry N-1, append a newline "to simulate entry by user", and evaluate it. -/
def run_nth_history (n : Int) (st : HistSt) : HistSt :=
  let len : Int := (history_length st.ring : Int)
  if n > len then st
  else if n < 1 then st
  else eval_hist (st.ring.getD (n - 1).toNat [] ++ ['\n']) st

/-- Claim C5 (counterexample): with the ring holding the single command `ls`
and the file holding the line `ls`, replaying `!1` does NOT leave the ring
and the file unchanged — eval re-enters write_to_history with the replayed
command `ls`, which does not start with '!', so `ls` is appended to the ring
and to the file a second time. -/
theorem c5_counterexample :
    run_nth_history 1 ⟨[['l', 's']], ['l', 's', '\n']⟩ ≠ ⟨[['l', 's']], ['l', 's', '\n']⟩ := by
  decide

/-- Claim C5 (amended): a command line starting with '!' is itself never
persisted (first conjunct), but replaying `!N` with N in range re-persists
the replayed entry: the ring receives it through add_to_history and the file
gains it as a new line (second conjunct). -/
theorem c5_bang_not_persisted_but_replay_repersisted :
    (∀ (st : HistSt) (cmd0 : List Char),
      (if cmd0.getLast? = some '\n' then cmd0.dropLast else cmd0).head? = some '!' →
      write_to_history cmd0 st = st)
    ∧ (∀ (st : HistSt) (n : Int) (e : List Char),
        1 ≤ n → n ≤ (history_length st.ring : Int) →
        st.ring.getD (n - 1).toNat [] = e →
        e ≠ [] → e.head? ≠ some '!' →
        run_nth_history n st = ⟨add_to_history e st.ring, st.file ++ e ++ ['\n']⟩) := by
  constructor
  · intro st cmd0 hbang
    rw [write_to_history]
    simp only [hbang, if_pos rfl]
    simp
  · intro st n e h1 hlen he hne hhead
    rw [run_nth_history]
    have hgt : ¬(n > (history_length st.ring : Int)) := by omega
    have hlt : ¬(n < 1) := by omega
    simp only [hgt, hlt, if_false, he]
    rw [eval_hist, write_to_history]
    have hlast : (e ++ ['\n']).getLast? = some '\n' := by
      simp [List.getLast?_append]
    have hdrop : (e ++ ['\n']).dropLast = e := by
      simp
    rw [hlast]
    simp only [if_pos rfl, hdrop]
    cases e with
    | nil => exact absurd rfl hne
    | cons c cs =>
        have hh : (c :: cs).head? ≠ some '!' := hhead
        simp only [List.head?_cons] at hh
        simp [hh]

/-- Witness for the amended claim C5 at a concrete input: replaying `!1` on
the ring holding only `ls` (file empty) appends `ls` to the ring again and
writes the line `ls` to the file. -/
theorem c5_bang_not_persisted_but_replay_repersisted_witness :
    run_nth_history 1 ⟨[['l', 's']], []⟩
      = ⟨add_to_history ['l', 's'] [['l', 's']], [] ++ ['l', 's'] ++ ['\n']⟩ :=
  c5_bang_not_persisted_but_replay_repersisted.2 ⟨[['l', 's']], []⟩ 1 ['l', 's']
    (by decide) (by decide) (by decide) (by decide) (by decide)

/-- reset_history (tsh.c 1183-1214): truncate the .tsh_history file and write
every non-empty ring entry as one line, in slot order. -/
def reset_history (ring : List (List Char)) : List Char :=
  ((ring.filter (fun e => decide (e ≠ []))).map (fun e => e ++ ['\n'])).join

/-- The byte scan of init_history (tsh.c 1035-1052), which walks the history
file backwards one character at a time: the first argument is the file's
characters in reverse order.  `cmds` is the `commands` array collected so far
and `cur` the `command` buffer (holding characters in the reversed order they
were read).  On a newline with a non-empty buffer the buffer is reversed
(strrevr) and — only for the first collected command, i.e. the file's last
line — its final character (the file's trailing newline) is cut; the loop
stops once MAXHISTORY commands are collected. -/
def scanRev : List Char → List (List Char) → List Char → List (List Char) × List Char
  | [], cmds, cur => (cmds, cur)
  | c :: rest, cmds, cur =>
      if MAXHISTORY ≤ cmds.length then (cmds, cur)
      else if c = '\n' ∧ cur ≠ [] then
        scanRev rest (cmds ++ [if cmds.isEmpty then cur.reverse.dropLast else cur.reverse]) []
      else scanRev rest cmds (cur ++ [c])

/-- init_history (tsh.c 1006-1069): scan the file backwards collecting up to
MAXHISTORY commands; when fewer than MAXHISTORY were collected, flush the
remaining buffer (reversed, tsh.c 1055-1060) as one more command; finally add
the collected commands to the (empty) ring from the last collected to the
first (tsh.c 1066-1068). -/
def init_history (file : List Char) : List (List Char) :=
  let p := scanRev file.reverse [] []
  let cmds := if MAXHISTORY ≤ p.1.length then p.1 else p.1 ++ [p.2.reverse]
  cmds.reverse.foldl (fun acc c => add_to_history c acc) []

/-- One line of the history file as seen by the backwards scan: the
terminating newline followed by the line's characters reversed. -/
def revLine (l : List Char) : List Char := '\n' :: l.reverse

/-- Claim C6 (counterexample): persisting the one-command ring `ls` and
rehydrating it yields the ring `ls\n`, not `ls`: for a single-line file the
newline-stripping special case of the scan (tsh.c 1042-1044) never fires, so
the trailing newline of the file survives into the rehydrated entry. -/
theorem c6_counterexample :
    init_history (reset_history [['l', 's']]) ≠ [['l', 's']] := by
  decide

/-- Helper: add_to_history finds no empty slot when all entries are
non-empty. -/
theorem addHistLoop_eq_none (cmd : List Char) :
    ∀ h : List (List Char), (∀ e ∈ h, e ≠ []) → addHistLoop cmd h = none := by
  intro h
  induction h with
  | nil => intro _; rfl
  | cons e rest ih =>
      intro hall
      have he : e ≠ [] := hall e (by simp)
      have hlen : ¬(e.length = 0) := by simpa [List.length_eq_zero] using he
      rw [addHistLoop, if_neg hlen, ih (fun x hx => hall x (by simp [hx]))]

/-- Helper: folding add_to_history over non-empty commands, starting from a
ring with room for all of them, appends them in order. -/
theorem foldl_add_to_history :
    ∀ (L acc : List (List Char)), (∀ e ∈ acc, e ≠ []) → (∀ e ∈ L, e ≠ []) →
      acc.length + L.length ≤ MAXHISTORY →
      L.foldl (fun a c => add_to_history c a) acc = acc ++ L := by
  intro L
  induction L with
  | nil => intro acc _ _ _; simp
  | cons c L2 ih =>
      intro acc hacc hL hlen
      have hc : c ≠ [] := hL c (by simp)
      have hadd : add_to_history c acc = acc ++ [c] := by
        rw [add_to_history, addHistLoop_eq_none c acc hacc]
        have hroom : acc.length < MAXHISTORY := by
          simp only [List.length_cons] at hlen
          omega
        simp [hroom]
      rw [List.foldl_cons, hadd,
          ih (acc ++ [c])
            (by
              intro e he
              rcases List.mem_append.mp he with h1 | h1
              · exact hacc e h1
              · simp only [List.mem_singleton] at h1
                subst h1
                exact hc)
            (fun e he => hL e (by simp [he]))
            (by simp at hlen ⊢; omega)]
      simp

/-- Helper: reversing the history file turns each line `l` + newline into a
`revLine` block, in reverse line order. -/
theorem reverse_histfile :
    ∀ h : List (List Char),
      ((h.map (fun e => e ++ ['\n'])).join).reverse = (h.reverse.map revLine).join := by
  intro h
  induction h with
  | nil => rfl
  | cons a t ih =>
      simp only [List.map_cons, List.join_cons, List.reverse_append, ih,
        List.map_append, List.join_append, List.map_cons, List.map_nil,
        List.join_cons, List.join_nil, revLine]
      simp [revLine]

/-- Helper: the scan passes over a newline-free block by loading it into the
buffer. -/
theorem scanRev_no_newline :
    ∀ (cs R : List Char) (cmds : List (List Char)) (cur : List Char),
      '\n' ∉ cs → cmds.length < MAXHISTORY →
      scanRev (cs ++ R) cmds cur = scanRev R cmds (cur ++ cs) := by
  intro cs
  induction cs with
  | nil => intro R cmds cur _ _; simp
  | cons c cs2 ih =>
      intro R cmds cur hmem hlen
      have hc : ¬(c = '\n') := fun hceq => hmem (by simp [hceq])
      have hnot := Nat.not_le.mpr hlen
      rw [List.cons_append]
      rw [show scanRev (c :: (cs2 ++ R)) cmds cur
            = scanRev (cs2 ++ R) cmds (cur ++ [c]) by
        simp [scanRev, hnot, hc]]
      rw [ih R cmds (cur ++ [c]) (fun hm => hmem (List.mem_cons_of_mem c hm)) hlen]
      simp

/-- Helper: a newline met with an empty buffer is loaded into the buffer (the
file's very last character, read first). -/
theorem scanRev_newline_empty (R : List Char) (cmds : List (List Char))
    (hlen : cmds.length < MAXHISTORY) :
    scanRev ('\n' :: R) cmds [] = scanRev R cmds ['\n'] := by
  have hnot := Nat.not_le.mpr hlen
  simp [scanRev, hnot]

/-- Helper: the first flush (empty commands array) reverses the buffer and
cuts its last character. -/
theorem scanRev_first_flush (R : List Char) (cur : List Char) (hcur : cur ≠ []) :
    scanRev ('\n' :: R) [] cur = scanRev R [cur.reverse.dropLast] [] := by
  simp [scanRev, hcur, MAXHISTORY]

/-- Helper: every later flush (non-empty commands array) appends the reversed
buffer unchanged. -/
theorem scanRev_flush (R : List Char) (cmds : List (List Char)) (cur : List Char)
    (hcur : cur ≠ []) (hcmds : cmds ≠ []) (hlen : cmds.length < MAXHISTORY) :
    scanRev ('\n' :: R) cmds cur = scanRev R (cmds ++ [cur.reverse]) [] := by
  have hnot := Nat.not_le.mpr hlen
  have hne : cmds.isEmpty = false := by
    cases cmds with
    | nil => exact absurd rfl hcmds
    | cons a l => rfl
  simp [scanRev, hnot, hcur, hne]

/-- The commands the steady-state scan collects from older lines `ls` while a
line `m` sits in the buffer: all but the last of `m :: ls`. -/
def frontCmds : List (List Char) → List Char → List (List Char)
  | [], _ => []
  | l :: ls, m => m :: frontCmds ls l

/-- The line left in the buffer after the steady-state scan: the last of
`m :: ls`. -/
def backCmd : List (List Char) → List Char → List Char
  | [], m => m
  | l :: ls, _ => backCmd ls l

/-- Helper: frontCmds collects one command per older line. -/
theorem frontCmds_length : ∀ (ls : List (List Char)) (m : List Char),
    (frontCmds ls m).length = ls.length := by
  intro ls
  induction ls with
  | nil => intro m; rfl
  | cons l ls2 ih => intro m; simp [frontCmds, ih]

/-- Helper: the collected commands plus the final buffer line restore
`m :: ls`. -/
theorem frontCmds_backCmd : ∀ (ls : List (List Char)) (m : List Char),
    frontCmds ls m ++ [backCmd ls m] = m :: ls := by
  intro ls
  induction ls with
  | nil => intro m; rfl
  | cons l ls2 ih => intro m; simp [frontCmds, backCmd, ih]

/-- Helper (main scan lemma): once one command is collected and a line `m`
sits in the buffer, scanning the blocks of the older lines `ls` collects all
but the last of `m :: ls` and leaves the last in the buffer. -/
theorem scanRev_main :
    ∀ (ls cmds : List (List Char)) (m : List Char),
      cmds ≠ [] → (∀ l ∈ ls, l ≠ [] ∧ '\n' ∉ l) → m ≠ [] →
      cmds.length + ls.length < MAXHISTORY →
      scanRev ((ls.map revLine).join) cmds m.reverse
        = (cmds ++ frontCmds ls m, (backCmd ls m).reverse) := by
  intro ls
  induction ls with
  | nil =>
      intro cmds m _ _ _ _
      simp [scanRev, frontCmds, backCmd]
  | cons l ls2 ih =>
      intro cmds m hcmds hls hm hlen
      have hl : l ≠ [] ∧ '\n' ∉ l := hls l (by simp)
      have hlen' : cmds.length + (ls2.length + 1) < MAXHISTORY := by
        simpa using hlen
      have e1 : (((l :: ls2).map revLine).join)
          = '\n' :: (l.reverse ++ ((ls2.map revLine).join)) := by
        simp [revLine]
      rw [e1]
      rw [scanRev_flush _ _ _ (by simpa using hm) hcmds (by omega)]
      rw [List.reverse_reverse]
      rw [scanRev_no_newline _ _ _ _ (by simpa using hl.2) (by simp; omega)]
      rw [List.nil_append]
      rw [ih (cmds ++ [m]) l (by simp) (fun x hx => hls x (by simp [hx])) hl.1
            (by simp; omega)]
      simp [frontCmds, backCmd]

/-- Claim C6 (amended): the persist/rehydrate round trip is the identity on
every ring holding at least TWO commands (each non-empty and newline-free):
reset_history followed by init_history returns exactly the same ring in
insertion order.  (For a one-command ring the single rehydrated entry keeps
the file's trailing newline — see the counterexample.) -/
theorem c6_round_trip_identity :
    ∀ h : List (List Char),
      (∀ e ∈ h, e ≠ [] ∧ '\n' ∉ e) → 2 ≤ h.length → h.length ≤ MAXHISTORY →
      init_history (reset_history h) = h := by
  intro h hent h2 h10
  have hfilter : h.filter (fun e => decide (e ≠ [])) = h := by
    rw [List.filter_eq_self]
    intro a ha
    simpa using (hent a ha).1
  have hrev : (reset_history h).reverse = (h.reverse.map revLine).join := by
    rw [reset_history, hfilter, reverse_histfile]
  have hlenrev : 2 ≤ h.reverse.length := by simpa using h2
  obtain ⟨lk, r1, hr1⟩ : ∃ a r, h.reverse = a :: r := by
    cases hh : h.reverse with
    | nil => rw [hh] at hlenrev; simp at hlenrev
    | cons a r => exact ⟨a, r, rfl⟩
  obtain ⟨t2, rest, hr2⟩ : ∃ b r2, r1 = b :: r2 := by
    cases hh : r1 with
    | nil => rw [hh] at hr1; rw [hr1] at hlenrev; simp at hlenrev
    | cons b r2 => exact ⟨b, r2, rfl⟩
  have hfull : h.reverse = lk :: t2 :: rest := by rw [hr1, hr2]
  have hmemrev : ∀ e ∈ h.reverse, e ≠ [] ∧ '\n' ∉ e := by
    intro e he
    exact hent e (List.mem_reverse.mp he)
  have hlk : lk ≠ [] ∧ '\n' ∉ lk := hmemrev lk (by rw [hfull]; simp)
  have ht2 : t2 ≠ [] ∧ '\n' ∉ t2 := hmemrev t2 (by rw [hfull]; simp)
  have hrest : ∀ l ∈ rest, l ≠ [] ∧ '\n' ∉ l := by
    intro l hlmem
    exact hmemrev l (by rw [hfull]; simp [hlmem])
  have hlenh : h.length = rest.length + 2 := by
    have := congrArg List.length hfull
    simpa using this
  have hcount : rest.length + 2 ≤ MAXHISTORY := by rw [← hlenh]; exact h10
  have e1 : ((lk :: t2 :: rest).map revLine).join
      = '\n' :: (lk.reverse ++ ('\n' :: (t2.reverse ++ ((rest.map revLine).join)))) := by
    simp [revLine]
  have hscan : scanRev ((h.reverse.map revLine).join) [] []
      = ([lk] ++ frontCmds rest t2, (backCmd rest t2).reverse) := by
    rw [hfull, e1]
    rw [scanRev_newline_empty
          (lk.reverse ++ ('\n' :: (t2.reverse ++ ((rest.map revLine).join)))) []
          (by decide)]
    rw [scanRev_no_newline lk.reverse
          ('\n' :: (t2.reverse ++ ((rest.map revLine).join))) [] ['\n']
          (by simpa using hlk.2) (by decide)]
    rw [show (['\n'] ++ lk.reverse : List Char) = (lk ++ ['\n']).reverse by simp]
    rw [scanRev_first_flush (t2.reverse ++ ((rest.map revLine).join))
          ((lk ++ ['\n']).reverse) (by simp)]
    rw [List.reverse_reverse, List.dropLast_concat]
    rw [scanRev_no_newline t2.reverse ((rest.map revLine).join) [lk] []
          (by simpa using ht2.2) (by simp [MAXHISTORY])]
    rw [List.nil_append]
    have hb : ([lk] : List (List Char)).length + rest.length < MAXHISTORY := by
      simp only [List.length_singleton]
      omega
    exact scanRev_main rest [lk] t2 (by simp) hrest ht2.1 hb
  rw [init_history]
  simp only [hrev, hscan]
  have hflen : ([lk] ++ frontCmds rest t2).length = rest.length + 1 := by
    simp [frontCmds_length]
  rw [if_neg (by rw [hflen]; omega)]
  rw [List.reverse_reverse, List.append_assoc, frontCmds_backCmd,
      List.singleton_append, ← hfull, List.reverse_reverse]
  have hfold := foldl_add_to_history h [] (by intro e he; cases he)
    (fun e he => (hent e he).1) (by simpa using h10)
  simpa using hfold

/-- Witness for the amended claim C6 at a concrete input: the two-command
ring `a`, `b` survives the persist/rehydrate round trip unchanged. -/
theorem c6_round_trip_identity_witness :
    init_history (reset_history [['a'], ['b']]) = [['a'], ['b']] :=
  c6_round_trip_identity [['a'], ['b']] (by decide) (by decide) (by decide)

end Tsh
